import Mathlib

/-!
Verification development for the dual-subtitle caption engine
(time codec, track parser, cue matcher, segment fetcher, synchronization loop).

Strings are modelled as `List Char`; fractional seconds as exact rationals `ℚ`
(the JavaScript host uses binary doubles; all quantities occurring in the
claims are small decimal fractions, for which the rational model is the
standard shallow embedding).  Asynchronous network retrieval is modelled by an
explicit oracle mapping a request (URL and per-segment attempt number) to an
outcome, and the unbounded `while (true)` fetch loop by a fuel-indexed runner.
-/

set_option maxHeartbeats 1000000

/- The kernel evaluates rational arithmetic fine, but several core `Rat`
operations are marked irreducible, which stalls `decide` during elaboration;
restore their transparency so concrete rational computations evaluate. -/
set_option allowUnsafeReducibility true
attribute [semireducible] Rat.add Rat.mul Rat.div Rat.sub Rat.inv Rat.neg Rat.normalize mkRat

namespace DualSub

/-- Character strings of the host language, modelled as lists of characters. -/
abbrev Str := List Char

/-- Whitespace characters recognised by the host `trim()` (ASCII subset; the
only whitespace occurring in the modelled documents). -/
def isWsChar (c : Char) : Bool :=
  c = ' ' || c = '\t' || c = '\n' || c = '\r' || c = '\x0b' || c = '\x0c'

/-- `s.trim()` of the host language: remove leading and trailing whitespace. -/
def jsTrim (s : Str) : Str :=
  ((s.dropWhile isWsChar).reverse.dropWhile isWsChar).reverse

/-- `needle` occurs as a contiguous substring of the argument
(`String.prototype.includes`). -/
def hasSubstr (needle : Str) : Str → Bool
  | [] => needle.isPrefixOf []
  | c :: rest => needle.isPrefixOf (c :: rest) || hasSubstr needle rest

/-- Rewrite every `\r\n` pair into a single `\n`; a lone `\r` is untouched.
Composed with `splitChar '\n'` below this realises `split(/\r?\n/)`, whose
separators are exactly `\r\n` and lone `\n`. -/
def normalizeNewlines : Str → Str
  | [] => []
  | '\r' :: '\n' :: rest => '\n' :: normalizeNewlines rest
  | c :: rest => c :: normalizeNewlines rest

/-- Prepend a character to the first chunk of a chunk list. -/
def consHead (c : Char) : List Str → List Str
  | l :: ls => (c :: l) :: ls
  | [] => [[c]]

/-- Split at every occurrence of the single character `sep`. -/
def splitChar (sep : Char) : Str → List Str
  | [] => [[]]
  | c :: rest =>
    if c = sep then [] :: splitChar sep rest else consHead c (splitChar sep rest)

/-- Split on the line separator `\r?\n`, as `split(/\r?\n/)` does. -/
def splitLines (s : Str) : List Str :=
  splitChar '\n' (normalizeNewlines s)

/-- Prefix of `s` strictly before the first occurrence of `sep`, paired with
the remainder after that occurrence; `none` when `sep` does not occur. -/
def breakOnSub (sep : Str) : Str → Option (Str × Str)
  | [] => if sep.isPrefixOf ([] : Str) then some ([], []) else none
  | c :: rest =>
    if sep.isPrefixOf (c :: rest) then some ([], (c :: rest).drop sep.length)
    else
      match breakOnSub sep rest with
      | some (pre, post) => some (c :: pre, post)
      | none => none

/-- Fuel-indexed worker for `splitOnSep`. -/
def splitOnSepFuel (sep : Str) : Nat → Str → List Str
  | 0, s => [s]
  | fuel + 1, s =>
    match breakOnSub sep s with
    | none => [s]
    | some (pre, post) => pre :: splitOnSepFuel sep fuel post

/-- `s.split(sep)` of the host language for a non-empty string separator. -/
def splitOnSep (sep : Str) (s : Str) : List Str :=
  splitOnSepFuel sep (s.length + 1) s

/-- Numeric value of a non-empty decimal digit string (`+match` coercion). -/
def digitsToNat (ds : Str) : Nat :=
  ds.foldl (fun n c => 10 * n + (c.toNat - '0'.toNat)) 0

/-- Value of the fractional digit string after the decimal point. -/
def fracValue (ds : Str) : ℚ :=
  (digitsToNat ds : ℚ) / (10 : ℚ) ^ ds.length

/-!  ## Time codec (`Utils.timeToSeconds`, `toSeconds`)

`timeToSeconds` applies the unanchored search `hms.match(/(\d+):(\d+):(\d+\.\d+)/)`.
For this pattern the backtracking regex semantics coincide with maximal digit
runs: a match starting at a position exists iff a maximal digit run there is
followed by `:`, a digit run, `:`, a digit run, `.`, and a final digit run
(shrinking a greedy `\d+` would place a digit where a literal `:` or `.` is
required).  The leftmost such position wins, as in the host engine. -/

/-- Consume a maximal non-empty digit run (`\d+`), returning it with the rest. -/
def takeDigits1 (s : Str) : Option (Str × Str) :=
  if s.takeWhile Char.isDigit = [] then none
  else some (s.takeWhile Char.isDigit, s.dropWhile Char.isDigit)

/-- Consume the literal string `lit`. -/
def consumeLit (lit : Str) (s : Str) : Option Str :=
  if lit.isPrefixOf s then some (s.drop lit.length) else none

/-- Attempt the clock pattern at the start of `s`; on success return the three
capture groups, the third split at its decimal point. -/
def matchClockAt (s : Str) : Option (Str × Str × Str × Str) :=
  takeDigits1 s >>= fun hr =>
  consumeLit [':'] hr.2 >>= fun r1 =>
  takeDigits1 r1 >>= fun mr =>
  consumeLit [':'] mr.2 >>= fun r2 =>
  takeDigits1 r2 >>= fun sir =>
  consumeLit ['.'] sir.2 >>= fun r3 =>
  takeDigits1 r3 >>= fun sfr =>
  some (hr.1, mr.1, sir.1, sfr.1)

/-- Leftmost match of the clock pattern anywhere in the string. -/
def searchClock : Str → Option (Str × Str × Str × Str)
  | [] => none
  | c :: rest =>
    match matchClockAt (c :: rest) with
    | some g => some g
    | none => searchClock rest

/-- `Utils.timeToSeconds` / `toSeconds`: value of the leftmost
`(\d+):(\d+):(\d+\.\d+)` match, or `0` when the pattern does not occur. -/
def timeToSeconds (hms : Str) : ℚ :=
  match searchClock hms with
  | some (h, m, si, sf) =>
    (digitsToNat h : ℚ) * 3600 + (digitsToNat m : ℚ) * 60 +
      ((digitsToNat si : ℚ) + fracValue sf)
  | none => 0

/-!  ## Track parser (`SubtitleParser.parseVTT`) -/

/-- One parsed cue. -/
structure Cue where
  startTime : ℚ
  endTime : ℚ
  text : Str
  originalStart : Str
  originalEnd : Str
deriving DecidableEq

/-- Consume exactly `n` decimal digits. -/
def consumeDigits : Nat → Str → Option Str
  | 0, s => some s
  | _ + 1, [] => none
  | n + 1, c :: r => if c.isDigit then consumeDigits n r else none

/-- Consume one `\d{2}:\d{2}:\d{2}\.\d{3}` timestamp token. -/
def consumeTimestampTok (s : Str) : Option Str :=
  consumeDigits 2 s >>= consumeLit [':'] >>= consumeDigits 2 >>=
    consumeLit [':'] >>= consumeDigits 2 >>= consumeLit ['.'] >>= consumeDigits 3

/-- `SubtitleParser.isTimestampLine`: the line starts with
`\d{2}:\d{2}:\d{2}\.\d{3} --> \d{2}:\d{2}:\d{2}\.\d{3}` (prefix match). -/
def isTimestampLine (line : Str) : Bool :=
  (consumeTimestampTok line >>= consumeLit " --> ".toList >>= consumeTimestampTok).isSome

/-- Build a cue from the raw header tokens and the collected text lines, as the
body of the parse loop does. -/
def mkCue (startTok endTok : Str) (textLines : List Str) : Cue :=
  { startTime := timeToSeconds startTok
    endTime := timeToSeconds ((splitOnSep [' '] endTok).getD 0 [])
    text := jsTrim (List.intercalate ['\n'] textLines)
    originalStart := startTok
    originalEnd := endTok }

/-- `subtitles.push(subtitle)` guarded by `if (subtitle.text)`. -/
def pushCue (c : Cue) (rest : List Cue) : List Cue :=
  if c.text = [] then rest else c :: rest

/-- Parser mode: scanning for a cue header, or collecting the text block of the
header whose raw start/end tokens are carried along. -/
inductive PMode where
  | scanning : PMode
  | collecting (startTok endTok : Str) (acc : List Str) : PMode
deriving DecidableEq

/-- The parse loop of `parseVTT` as a line-at-a-time state machine: a header
line (after trimming) opens a text block; in a block every non-blank raw line
is collected; a blank line (or end of input) closes the block and emits the cue
when its trimmed text is non-empty.  All other lines are skipped. -/
def parseAux : List Str → PMode → List Cue
  | [], .scanning => []
  | [], .collecting st en acc => pushCue (mkCue st en acc) []
  | l :: rest, .scanning =>
    if isTimestampLine (jsTrim l) then
      parseAux rest (.collecting ((splitOnSep " --> ".toList (jsTrim l)).getD 0 [])
        ((splitOnSep " --> ".toList (jsTrim l)).getD 1 []) [])
    else parseAux rest .scanning
  | l :: rest, .collecting st en acc =>
    if jsTrim l = [] then pushCue (mkCue st en acc) (parseAux rest .scanning)
    else parseAux rest (.collecting st en (acc ++ [l]))

/-- `SubtitleParser.parseVTT`: split the document into lines and run the parse
loop.  (The surrounding `try`/`catch` of the source cannot fire in the model:
every operation here is total.) -/
def parseVTT (vttText : Str) : List Cue :=
  parseAux (splitLines vttText) .scanning

/-!  ## Cue matcher (`SubtitleParser.findSubtitleForTime`) -/

/-- The default of the `tolerance` parameter (0.1 seconds). -/
def defaultTolerance : ℚ := 1 / 10

/-- `SubtitleParser.findSubtitleForTime`: first cue (in track order) whose
tolerance-expanded interval contains the query time, else `none`. -/
def findSubtitleForTime (subtitles : List Cue) (currentTime tolerance : ℚ) : Option Cue :=
  if subtitles = [] then none
  else subtitles.find? fun s =>
    decide ((s.startTime - tolerance) ≤ currentTime) &&
      decide (currentTime ≤ (s.endTime + tolerance))

/-- `findSubtitleForTime` with the `tolerance` parameter left at its default. -/
def findSubtitleForTimeD (subtitles : List Cue) (currentTime : ℚ) : Option Cue :=
  findSubtitleForTime subtitles currentTime defaultTolerance

/-- The matching predicate of the cue matcher, as a proposition. -/
def activeAt (c : Cue) (t tol : ℚ) : Prop :=
  c.startTime - tol ≤ t ∧ t ≤ c.endTime + tol

instance (c : Cue) (t tol : ℚ) : Decidable (activeAt c t tol) := by
  unfold activeAt; infer_instance

/-!  ## Validation pass (`SubtitleParser.validateVTTContentDetailed`)

The `errors`/`warnings` arrays of the source feed logging only and are not
modelled; the counters and flags that decide `isValid` are. -/

/-- Result of the validation pass. -/
structure VTTValidation where
  isValid : Bool
  hasHeader : Bool
  hasTimestamps : Bool
  timestampCount : Nat
  textCount : Nat
deriving DecidableEq

/-- Running state of the validation line scan. -/
structure VScanState where
  hasTimestamps : Bool
  timestampCount : Nat
  textCount : Nat
  inTextBlock : Bool
  currentTextBlock : Str
deriving DecidableEq

/-- One line of the validation scan (the `for (const line of lines)` body). -/
def vStep (st : VScanState) (line : Str) : VScanState :=
  let t := jsTrim line
  if isTimestampLine t then
    { st with hasTimestamps := true, timestampCount := st.timestampCount + 1,
              inTextBlock := false }
  else if t ≠ [] ∧ st.inTextBlock then
    { st with currentTextBlock := st.currentTextBlock ++ t ++ [' '] }
  else if t = [] ∧ jsTrim st.currentTextBlock ≠ [] then
    { st with textCount := st.textCount + 1, currentTextBlock := [],
              inTextBlock := false }
  else if t ≠ [] ∧ ¬st.inTextBlock then
    { st with inTextBlock := true, currentTextBlock := t ++ [' '] }
  else st

/-- `SubtitleParser.validateVTTContentDetailed`: classify a document without
mutating parser state; invalid when trim-empty, or when there are zero
timestamp lines or zero text blocks. -/
def validateVTTContentDetailed (content : Str) : VTTValidation :=
  if jsTrim content = [] then
    { isValid := false, hasHeader := false, hasTimestamps := false,
      timestampCount := 0, textCount := 0 }
  else
    let fs := (splitLines content).foldl vStep
      { hasTimestamps := false, timestampCount := 0, textCount := 0,
        inTextBlock := false, currentTextBlock := [] }
    let finalTextCount :=
      if jsTrim fs.currentTextBlock ≠ [] then fs.textCount + 1 else fs.textCount
    { isValid := fs.hasTimestamps && decide (0 < fs.timestampCount) &&
        decide (0 < finalTextCount)
      hasHeader := hasSubstr "WEBVTT".toList content
      hasTimestamps := fs.hasTimestamps
      timestampCount := fs.timestampCount
      textCount := finalTextCount }

/-!  ## Segment fetcher (`SubtitleParser.enhancedFetch`, `fetchAllVTTs`) -/

deriving instance DecidableEq for Except

/-- Outcome of one raw network retrieval: an HTTP response (any status), or a
thrown network-level failure (`isAbortError` marks the 15-second timeout). -/
inductive NetOutcome where
  | response (status : Nat) (statusText : Str) (body : Str) : NetOutcome
  | failure (isAbortError : Bool) (message : Str) : NetOutcome

/-- The error message `HTTP ${status}: ${statusText}` thrown on a non-ok
response. -/
def httpErrorMsg (status : Nat) (statusText : Str) : Str :=
  "HTTP ".toList ++ Nat.toDigits 10 status ++ ": ".toList ++ statusText

/-- `SubtitleParser.enhancedFetch`: a response with ok status (200–299) yields
its body; a non-ok status is converted to a thrown `HTTP status: statusText`
error; an abort (timeout) is converted to `Fetch timeout for url`; any other
thrown failure is re-thrown unchanged. -/
def enhancedFetch (url : Str) (o : NetOutcome) : Except Str Str :=
  match o with
  | .response status statusText body =>
    if 200 ≤ status ∧ status ≤ 299 then .ok body
    else .error (httpErrorMsg status statusText)
  | .failure isAbortError message =>
    if isAbortError then .error ("Fetch timeout for ".toList ++ url)
    else .error message

/-- The not-found classification of a caught fetch error:
`error.message.includes('404') || error.message.includes('NoSuchKey')`. -/
def isNotFoundMsg (msg : Str) : Bool :=
  hasSubstr "404".toList msg || hasSubstr "NoSuchKey".toList msg

/-- The `.vtt` file suffix. -/
def vttSuffix : Str := ".vtt".toList

/-- Leftmost match of `(\d+)\.vtt$`: the text before the match paired with the
matched digit group.  At a given position the greedy digit run followed by the
literal `.vtt` at end of string is exact: shrinking the run would place a digit
where `.` is required. -/
def findVttNumMatch : Str → Option (Str × Str)
  | [] => none
  | c :: rest =>
    if (c :: rest).takeWhile Char.isDigit ≠ [] ∧
        (c :: rest).dropWhile Char.isDigit = vttSuffix then
      some ([], (c :: rest).takeWhile Char.isDigit)
    else
      match findVttNumMatch rest with
      | some (pre, g) => some (c :: pre, g)
      | none => none

/-- `baseUrl.replace(/(\d+)\.vtt$/, `${index}.vtt`)`: substitute the current
segment index for the trailing numeric token; identity when the template has
no trailing `<digits>.vtt`. -/
def segUrl (baseUrl : Str) (index : Nat) : Str :=
  match findVttNumMatch baseUrl with
  | some (pre, _) => pre ++ Nat.toDigits 10 index ++ vttSuffix
  | none => baseUrl

/-- The fetch loop's retry cap (`maxRetries`). -/
def maxRetries : Nat := 3

/-- Transient state of one fetch session: current segment index, per-segment
retry counter, accumulation buffer, and the trace of backoff delays waited so
far (milliseconds). -/
structure FetchState where
  index : Nat
  retryCount : Nat
  allContent : Str
  delays : List Nat
deriving DecidableEq

/-- Result of one iteration of the fetch loop. -/
inductive FetchIter where
  | next (s : FetchState) : FetchIter
  | halt (allContent : Str) (delays : List Nat) : FetchIter
deriving DecidableEq

/-- One iteration of the `while (true)` loop of `fetchAllVTTs`.  The network
is an oracle from the derived segment URL and the current per-segment attempt
number to the result of `enhancedFetch` (body or thrown error message). -/
def fetchStepF (net : Str → Nat → Except Str Str) (baseUrl : Str)
    (s : FetchState) : FetchIter :=
  match net (segUrl baseUrl s.index) s.retryCount with
  | .ok text =>
    if (validateVTTContentDetailed text).isValid then
      .next { index := s.index + 1, retryCount := 0,
              allContent := s.allContent ++ text ++ ['\n'], delays := s.delays }
    else .halt s.allContent s.delays
  | .error msg =>
    if isNotFoundMsg msg then .halt s.allContent s.delays
    else if maxRetries ≤ s.retryCount + 1 then .halt s.allContent s.delays
    else
      .next { s with
              retryCount := s.retryCount + 1
              delays := s.delays ++ [1000 * 2 ^ (s.retryCount + 1 - 1)] }

/-- Fuel-indexed runner of the fetch loop; `none` means the fuel bound was hit
before the loop terminated. -/
def fetchRun (net : Str → Nat → Except Str Str) (baseUrl : Str) :
    Nat → FetchState → Option (Str × List Nat)
  | 0, _ => none
  | fuel + 1, s =>
    match fetchStepF net baseUrl s with
    | .halt acc d => some (acc, d)
    | .next s2 => fetchRun net baseUrl fuel s2

/-- The initial fetch session state: index 1, no retries, empty buffer. -/
def initFetchState : FetchState :=
  { index := 1, retryCount := 0, allContent := [], delays := [] }

/-- The hard-failure message thrown when nothing was accumulated. -/
def hardFailMsg : Str := "No valid VTT content found".toList

/-- `SubtitleParser.fetchAllVTTs`: run the segment loop from index 1 and raise
the hard failure exactly when the accumulated buffer is trim-empty.  The pair
also reports the backoff delays waited, for the retry-policy claims. -/
def fetchAllVTTs (net : Str → Nat → Except Str Str) (baseUrl : Str)
    (fuel : Nat) : Option (Except Str Str × List Nat) :=
  match fetchRun net baseUrl fuel initFetchState with
  | none => none
  | some (acc, d) =>
    if jsTrim acc = [] then some (.error hardFailMsg, d) else some (.ok acc, d)

/-!  ## Synchronization loop (`SubtitleManager`) -/

/-- `CONFIG.TOLERANCE` (0.1 seconds). -/
def TOLERANCE : ℚ := 1 / 10

/-- The mutable state of the subtitle manager.  DOM handles are abstracted to
presence flags; `currentTime` is the last sampled playback time. -/
structure ManagerState where
  subtitle1Subtitles : List Cue
  subtitle2Subtitles : List Cue
  hasVideoElement : Bool
  hasTimeUpdateHandler : Bool
  isActive : Bool
  lastSubtitle1Text : Str
  lastSubtitle2Text : Str
  currentTime : ℚ
deriving DecidableEq

/-- `match ? match.text : ''`. -/
def cueTextOrEmpty : Option Cue → Str
  | some c => c.text
  | none => []

/-- `SubtitleManager.handleVideoTimeUpdate` on one sampling tick: skip when no
video element or inactive; otherwise record the time, resolve both tracks at
the shared tolerance and emit the text pair to the overlay exactly when it
differs from the last-emitted pair.  (The not-a-number guard of the source
cannot arise: playback time is modelled as a rational.)  The second component
is the emission: `none` when the overlay was not updated. -/
def handleVideoTimeUpdate (s : ManagerState) (currentTime : ℚ) :
    ManagerState × Option (Str × Str) :=
  if ¬s.hasVideoElement ∨ ¬s.isActive then (s, none)
  else
    let s1 := { s with currentTime := currentTime }
    let subtitle1Text := cueTextOrEmpty
      (findSubtitleForTime s.subtitle1Subtitles currentTime TOLERANCE)
    let subtitle2Text := cueTextOrEmpty
      (findSubtitleForTime s.subtitle2Subtitles currentTime TOLERANCE)
    if subtitle1Text ≠ s.lastSubtitle1Text ∨ subtitle2Text ≠ s.lastSubtitle2Text then
      ({ s1 with lastSubtitle1Text := subtitle1Text,
                 lastSubtitle2Text := subtitle2Text },
       some (subtitle1Text, subtitle2Text))
    else (s1, none)

/-- Run a sequence of sampling ticks, collecting each tick's emission. -/
def runTicks : ManagerState → List ℚ → ManagerState × List (Option (Str × Str))
  | s, [] => (s, [])
  | s, t :: ts =>
    let r := handleVideoTimeUpdate s t
    let rs := runTicks r.1 ts
    (rs.1, r.2 :: rs.2)

/-- `SubtitleManager.stop`: remove the time-update listener, clear the video
handle, the handler and both tracks, leave Active, and push the empty pair to
the overlay (the second component is that overlay emission).  The last-emitted
text fields are not touched by the source. -/
def stop (s : ManagerState) : ManagerState × (Str × Str) :=
  ({ s with hasVideoElement := false, hasTimeUpdateHandler := false,
            isActive := false, subtitle1Subtitles := [],
            subtitle2Subtitles := [] },
   ([], []))

/-!  ## Definitions for the comparison with the spec's wording -/

/-- A clock-pattern decomposition: hour, minute, second and millisecond digit
groups with their separators, followed by arbitrary remaining text. -/
def clockString (h m si sf rest : Str) : Str :=
  h ++ [':'] ++ m ++ [':'] ++ si ++ ['.'] ++ sf ++ rest

/-- Modelled from the spec: a full-string match of the documented timestamp
pattern `H+:MM:SS.mmm` — one or more hour digits (may exceed two), exactly two
minute digits, exactly two second digits, a dot, exactly three millisecond
digits, nothing else.  Used only to compare the spec's pattern with the code's
laxer unanchored regex. -/
def specClockPattern (s : Str) : Bool :=
  match takeDigits1 s with
  | none => false
  | some hr =>
    match consumeLit [':'] hr.2 >>= consumeDigits 2 >>= consumeLit [':'] >>=
        consumeDigits 2 >>= consumeLit ['.'] >>= consumeDigits 3 with
    | some [] => true
    | _ => false

/-- The URL template ends in one or more digits immediately followed by
`.vtt`. -/
def endsInDigitsVtt (s : Str) : Bool :=
  match s.reverse with
  | 't' :: 't' :: 'v' :: '.' :: d :: _ => d.isDigit
  | _ => false

/-- The clock pattern `\d+:\d+:\d+\.\d+` occurs somewhere in `s`. -/
def LooseClockMatch (s : Str) : Prop :=
  ∃ pre h m si sf rest,
    h ≠ [] ∧ (∀ c ∈ h, Char.isDigit c) ∧ m ≠ [] ∧ (∀ c ∈ m, Char.isDigit c) ∧
    si ≠ [] ∧ (∀ c ∈ si, Char.isDigit c) ∧ sf ≠ [] ∧ (∀ c ∈ sf, Char.isDigit c) ∧
    s = pre ++ clockString h m si sf rest

/-!  ## Concrete instances used by the claim theorems -/

/-- First cue of the C3 witness track. -/
def cueW1 : Cue :=
  { startTime := 0, endTime := 1, text := "A".toList,
    originalStart := [], originalEnd := [] }

/-- Second cue of the C3 witness track. -/
def cueW2 : Cue :=
  { startTime := 2, endTime := 3, text := "B".toList,
    originalStart := [], originalEnd := [] }

/-- The single cue of the C4 scenario. -/
def cueHi : Cue :=
  { startTime := 0, endTime := 1, text := "Hi".toList,
    originalStart := [], originalEnd := [] }

/-- The initial Active state of the C4 scenario: cue `{0,1,"Hi"}` on track 1,
empty track 2, nothing emitted yet. -/
def c4InitState : ManagerState :=
  { subtitle1Subtitles := [cueHi], subtitle2Subtitles := [],
    hasVideoElement := true, hasTimeUpdateHandler := true, isActive := true,
    lastSubtitle1Text := [], lastSubtitle2Text := [], currentTime := 0 }

/-- A state with a non-empty last-emitted text, exhibiting what `stop` leaves
behind. -/
def c5StateHi : ManagerState :=
  { subtitle1Subtitles := [cueHi], subtitle2Subtitles := [],
    hasVideoElement := true, hasTimeUpdateHandler := true, isActive := true,
    lastSubtitle1Text := "Hi".toList, lastSubtitle2Text := [], currentTime := 0 }

/-- A well-formed single-cue document used by the fetcher scenarios. -/
def vttDoc1 : Str := "WEBVTT\n\n00:00:01.000 --> 00:00:02.000\nHello\n".toList

/-- URL template of the fetcher scenarios. -/
def urlC1 : Str := "https://cdn/seg1.vtt".toList

/-- Network oracle of the C1 scenario: the request for segment 1 succeeds with
`vttDoc1`; every other request (in particular each attempt at segment 2)
throws a timeout. -/
def netC1 : Str → Nat → Except Str Str := fun url _ =>
  if url = "https://cdn/seg1.vtt".toList then Except.ok vttDoc1
  else Except.error "Fetch timeout for https://cdn/seg2.vtt".toList

/-- Network oracle whose every request yields an HTTP 404 error. -/
def net404 : Str → Nat → Except Str Str := fun _ _ =>
  Except.error (httpErrorMsg 404 "Not Found".toList)

/-- A document whose cue header has its end timestamp before its start
timestamp. -/
def c2CexDoc : Str := "00:00:02.000 --> 00:00:01.000\nHello\n".toList

/-- A well-formed single-cue document. -/
def c2WitnessDoc : Str :=
  "WEBVTT\n\n00:00:01.000 --> 00:00:02.000\nHello\n".toList

/-- The cue parsed from `c2WitnessDoc`. -/
def c2WitnessCue : Cue :=
  { startTime := 1, endTime := 2, text := "Hello".toList,
    originalStart := "00:00:01.000".toList, originalEnd := "00:00:02.000".toList }

/-- The concatenation the fetch loop builds: each segment's text followed by
one appended `\n`. -/
def concatSegs (segs : List Str) : Str :=
  (segs.map (fun t => t ++ ['\n'])).flatten

/-- First C8 counterexample segment: validator-valid but without a trailing
newline. -/
def c8Seg1 : Str := "WEBVTT\n\n00:00:01.000 --> 00:00:02.000\nHello".toList

/-- Second C8 counterexample segment. -/
def c8Seg2 : Str := "WEBVTT\n\n00:00:03.000 --> 00:00:04.000\nWorld".toList

/-- First C8 witness segment, ending in a newline. -/
def c8SegA : Str := "WEBVTT\n\n00:00:01.000 --> 00:00:02.000\nHello\n".toList

/-- Second C8 witness segment, ending in a newline. -/
def c8SegB : Str := "WEBVTT\n\n00:00:03.000 --> 00:00:04.000\nWorld\n".toList

/-- The accumulation buffer is a concatenation of validator-approved segment
texts, each followed by the `\n` appended by the loop — the invariant the
fetch loop maintains on `allContent`. -/
def AccValid (acc : Str) : Prop :=
  ∃ texts : List Str, acc = (texts.map (fun t => t ++ ['\n'])).flatten ∧
    ∀ t ∈ texts, (validateVTTContentDetailed t).isValid = true

/-!  ## General helper lemmas -/

/-- Characterisation of `List.find?`: it returns `b` exactly when the list
splits around `b` with every earlier element rejected by the predicate. -/
theorem find?_eq_some_split {α : Type} {p : α → Bool} {l : List α} {b : α} :
    l.find? p = some b ↔
      p b = true ∧ ∃ l1 l2, l = l1 ++ b :: l2 ∧ ∀ a ∈ l1, p a = false := by
  induction l with
  | nil => simp
  | cons x xs ih =>
    cases hx : p x with
    | true =>
      rw [List.find?_cons_of_pos _ hx]
      constructor
      · rintro h
        injection h with h
        subst h
        exact ⟨hx, [], xs, rfl, by simp⟩
      · rintro ⟨hb, l1, l2, heq, hall⟩
        cases l1 with
        | nil =>
          simp only [List.nil_append, List.cons.injEq] at heq
          rw [heq.1]
        | cons a l1 =>
          simp only [List.cons_append, List.cons.injEq] at heq
          have := hall a (by simp)
          rw [heq.1] at hx
          simp [hx] at this
    | false =>
      rw [List.find?_cons_of_neg _ (by simp [hx])]
      rw [ih]
      constructor
      · rintro ⟨hb, l1, l2, rfl, hall⟩
        exact ⟨hb, x :: l1, l2, rfl, by
          intro a ha
          rcases List.mem_cons.1 ha with rfl | ha
          · exact hx
          · exact hall a ha⟩
      · rintro ⟨hb, l1, l2, heq, hall⟩
        cases l1 with
        | nil =>
          simp only [List.nil_append, List.cons.injEq] at heq
          rw [heq.1] at hx
          rw [hx] at hb
          exact absurd hb (by simp)
        | cons a l1 =>
          simp only [List.cons_append, List.cons.injEq] at heq
          exact ⟨hb, l1, l2, heq.2, fun d hd => hall d (by simp [hd])⟩

/-- The Boolean matching predicate of the cue matcher agrees with `activeAt`. -/
theorem findPred_iff_activeAt (c : Cue) (t tol : ℚ) :
    (decide ((c.startTime - tol) ≤ t) && decide (t ≤ (c.endTime + tol))) = true ↔
      activeAt c t tol := by
  simp [activeAt]

/-!  ## Claim C3 — cue matcher characterisation -/

/-- **C3.**  `findActive(track, time, tolerance)` (tolerance defaulting to
0.1) returns the first cue in track order whose tolerance-expanded interval
`startTime - tolerance ≤ time ≤ endTime + tolerance` contains the query time;
it returns `none` on the empty track and whenever no cue satisfies the
predicate; and on a track of pairwise-disjoint cues it returns `none` for any
time separated from the surrounding cues by more than the tolerance. -/
theorem c3_findActive_characterization :
    (∀ subs t, findSubtitleForTimeD subs t = findSubtitleForTime subs t (1 / 10)) ∧
    (∀ t tol, findSubtitleForTime [] t tol = none) ∧
    (∀ subs t tol, (∀ c ∈ subs, ¬ activeAt c t tol) →
      findSubtitleForTime subs t tol = none) ∧
    (∀ subs t tol c, findSubtitleForTime subs t tol = some c ↔
      activeAt c t tol ∧
        ∃ l1 l2, subs = l1 ++ c :: l2 ∧ ∀ d ∈ l1, ¬ activeAt d t tol) ∧
    (∀ subs t tol l1 a b l2, subs = l1 ++ a :: b :: l2 →
      (∀ c ∈ subs, c.startTime ≤ c.endTime) →
      subs.Pairwise (fun x y => x.endTime ≤ y.startTime) →
      a.endTime + tol < t → t < b.startTime - tol →
      findSubtitleForTime subs t tol = none) := by
  have hnone : ∀ (subs : List Cue) (t tol : ℚ), (∀ c ∈ subs, ¬ activeAt c t tol) →
      findSubtitleForTime subs t tol = none := by
    intro subs t tol h
    unfold findSubtitleForTime
    split
    · rfl
    · rw [List.find?_eq_none]
      intro c hc
      simp only [Bool.and_eq_true, decide_eq_true_eq]
      intro hcontra
      exact h c hc ⟨hcontra.1, hcontra.2⟩
  refine ⟨fun subs t => rfl, fun t tol => rfl, hnone, ?_, ?_⟩
  · intro subs t tol c
    unfold findSubtitleForTime
    split
    · subst subs
      simp only [false_iff, not_and, reduceCtorEq]
      rintro - ⟨l1, l2, heq, -⟩
      exact (List.append_ne_nil_of_right_ne_nil l1 (by simp) heq.symm).elim
    · rw [find?_eq_some_split]
      constructor
      · rintro ⟨hb, l1, l2, heq, hall⟩
        refine ⟨(findPred_iff_activeAt c t tol).1 hb, l1, l2, heq, ?_⟩
        intro d hd hact
        have := hall d hd
        rw [(findPred_iff_activeAt d t tol).2 hact] at this
        cases this
      · rintro ⟨hact, l1, l2, heq, hall⟩
        refine ⟨(findPred_iff_activeAt c t tol).2 hact, l1, l2, heq, ?_⟩
        intro d hd
        have := hall d hd
        cases hpd : (decide ((d.startTime - tol) ≤ t) && decide (t ≤ (d.endTime + tol))) with
        | false => rfl
        | true => exact absurd ((findPred_iff_activeAt d t tol).1 hpd) this
  · intro subs t tol l1 a b l2 heq hwf hdisj hgapa hgapb
    apply hnone
    intro c hc
    subst heq
    rw [List.pairwise_append] at hdisj
    intro hact
    rcases List.mem_append.1 hc with hcl | hcr
    · have hca : c.endTime ≤ a.startTime := hdisj.2.2 c hcl a (by simp)
      have haa : a.startTime ≤ a.endTime := hwf a (by simp)
      have : t ≤ c.endTime + tol := hact.2
      linarith
    · rcases List.mem_cons.1 hcr with rfl | hcr2
      · have : t ≤ c.endTime + tol := hact.2
        linarith
      · rcases List.mem_cons.1 hcr2 with rfl | hcl2
        · have : c.startTime - tol ≤ t := hact.1
          linarith
        · have hbc : b.endTime ≤ c.startTime :=
            (List.pairwise_cons.1 (List.pairwise_cons.1 hdisj.2.1).2).1 c hcl2
          have hbb : b.startTime ≤ b.endTime := hwf b (by simp)
          have : c.startTime - tol ≤ t := hact.1
          linarith

/-- Witness for C3: on the disjoint two-cue track, a query time in the gap and
separated by more than the tolerance yields `none`. -/
theorem c3_findActive_witness :
    findSubtitleForTime [cueW1, cueW2] (3 / 2) (1 / 10) = none :=
  c3_findActive_characterization.2.2.2.2 [cueW1, cueW2] (3 / 2) (1 / 10)
    [] cueW1 cueW2 [] rfl (by decide) (by decide) (by decide) (by decide)

/-!  ## Claim C4 — emit-only-on-change -/

/-- **C4.**  In the Active state a sampling tick emits exactly when the
resolved text pair differs from the last-emitted pair (and then emits that
pair); consequently on ticks `[0, 0.05, 5]` against cue `{0,1,"Hi"}` the first
tick emits `("Hi","")`, the second emits nothing, and the third emits the
empty pair. -/
theorem c4_emit_on_change :
    (∀ s t, s.hasVideoElement = true → s.isActive = true →
      (handleVideoTimeUpdate s t).2 =
        (if cueTextOrEmpty (findSubtitleForTime s.subtitle1Subtitles t TOLERANCE)
              ≠ s.lastSubtitle1Text ∨
            cueTextOrEmpty (findSubtitleForTime s.subtitle2Subtitles t TOLERANCE)
              ≠ s.lastSubtitle2Text then
          some (cueTextOrEmpty (findSubtitleForTime s.subtitle1Subtitles t TOLERANCE),
                cueTextOrEmpty (findSubtitleForTime s.subtitle2Subtitles t TOLERANCE))
        else none)) ∧
    (runTicks c4InitState [0, 1 / 20, 5]).2 =
      [some ("Hi".toList, []), none, some ([], [])] := by
  constructor
  · intro s t h1 h2
    simp only [handleVideoTimeUpdate, h1, h2, not_true, or_self, if_false]
    rw [apply_ite Prod.snd]
  · decide

/-- Witness for C4: applying the emit-on-change rule at the scenario's first
tick yields the emission `("Hi", "")`. -/
theorem c4_emit_on_change_witness :
    (handleVideoTimeUpdate c4InitState 0).2 = some ("Hi".toList, []) := by
  rw [c4_emit_on_change.1 c4InitState 0 rfl rfl]
  decide

/-!  ## Claim C5 — stop() -/

/-- Counterexample to C5 as stated: `stop()` does **not** clear the
last-emitted text pair — after stopping from a state whose last-emitted
primary text is `"Hi"`, that text is still `"Hi"`, not empty. -/
theorem c5_stop_counterexample :
    (stop c5StateHi).1.lastSubtitle1Text = "Hi".toList ∧
      "Hi".toList ≠ ([] : Str) := by
  constructor
  · rfl
  · decide

/-- **C5 (amended).**  `stop()` detaches the sampler, clears the video handle
and both tracks, pushes the empty pair to the overlay and moves to Idle, and
is idempotent on the state — but it leaves the last-emitted text pair (and the
last sampled time) unchanged. -/
theorem c5_stop_amended :
    ∀ s : ManagerState,
      (stop s).1.hasVideoElement = false ∧
      (stop s).1.hasTimeUpdateHandler = false ∧
      (stop s).1.isActive = false ∧
      (stop s).1.subtitle1Subtitles = [] ∧
      (stop s).1.subtitle2Subtitles = [] ∧
      (stop s).1.lastSubtitle1Text = s.lastSubtitle1Text ∧
      (stop s).1.lastSubtitle2Text = s.lastSubtitle2Text ∧
      (stop s).1.currentTime = s.currentTime ∧
      (stop (stop s).1).1 = (stop s).1 ∧
      (stop s).2 = ([], []) := by
  intro s
  exact ⟨rfl, rfl, rfl, rfl, rfl, rfl, rfl, rfl, rfl, rfl⟩

/-!  ## Claim C7 — time codec -/

/-- Consuming a one-character literal succeeds exactly when it heads the
string. -/
theorem consumeLit_single {c : Char} {s r : Str} :
    consumeLit [c] s = some r ↔ s = c :: r := by
  unfold consumeLit
  cases s with
  | nil => simp [List.isPrefixOf]
  | cons a t =>
    by_cases hca : c = a
    · subst hca
      simp [List.isPrefixOf]
    · simp [List.isPrefixOf, hca, Ne.symm hca]

/-- Destructing a successful `takeDigits1`. -/
theorem takeDigits1_some {s ds r : Str} (h : takeDigits1 s = some (ds, r)) :
    ds ≠ [] ∧ (∀ c ∈ ds, Char.isDigit c) ∧ s = ds ++ r := by
  unfold takeDigits1 at h
  split at h
  · cases h
  · rename_i hne
    injection h with h
    injection h with h1 h2
    subst h1
    subst h2
    exact ⟨hne, fun c hc => List.mem_takeWhile_imp hc,
      (List.takeWhile_append_dropWhile Char.isDigit s).symm⟩

/-- Building a successful `takeDigits1` from a digit run followed by a
non-digit (or nothing). -/
theorem takeDigits1_build {ds r : Str} (hne : ds ≠ [])
    (hd : ∀ c ∈ ds, Char.isDigit c)
    (hr : ∀ c, r.head? = some c → Char.isDigit c = false) :
    takeDigits1 (ds ++ r) = some (ds, r) := by
  have htw : r.takeWhile Char.isDigit = [] := by
    cases r with
    | nil => rfl
    | cons a t => exact List.takeWhile_cons_of_neg (by simp [hr a rfl])
  have hdw : r.dropWhile Char.isDigit = r := by
    cases r with
    | nil => rfl
    | cons a t => exact List.dropWhile_cons_of_neg (by simp [hr a rfl])
  unfold takeDigits1
  rw [List.takeWhile_append_of_pos hd, List.dropWhile_append_of_pos hd, htw, hdw]
  simp [hne]

/-- The clock matcher succeeds on a clock-shaped string whose tail does not
begin with a digit, returning the four digit groups. -/
theorem matchClockAt_build {h m si sf rest : Str}
    (hh : h ≠ []) (hhd : ∀ c ∈ h, Char.isDigit c)
    (hm : m ≠ []) (hmd : ∀ c ∈ m, Char.isDigit c)
    (hsi : si ≠ []) (hsid : ∀ c ∈ si, Char.isDigit c)
    (hsf : sf ≠ []) (hsfd : ∀ c ∈ sf, Char.isDigit c)
    (hr : ∀ c, rest.head? = some c → Char.isDigit c = false) :
    matchClockAt (clockString h m si sf rest) = some (h, m, si, sf) := by
  have hshape : clockString h m si sf rest =
      h ++ (':' :: (m ++ (':' :: (si ++ ('.' :: (sf ++ rest)))))) := by
    simp [clockString]
  rw [hshape]
  unfold matchClockAt
  rw [takeDigits1_build hh hhd (by intro c hc; injection hc with hc; subst hc; rfl)]
  simp only [Option.bind_eq_bind, Option.some_bind]
  rw [consumeLit_single.mpr rfl]
  simp only [Option.bind_eq_bind, Option.some_bind]
  rw [takeDigits1_build hm hmd (by intro c hc; injection hc with hc; subst hc; rfl)]
  simp only [Option.bind_eq_bind, Option.some_bind]
  rw [consumeLit_single.mpr rfl]
  simp only [Option.bind_eq_bind, Option.some_bind]
  rw [takeDigits1_build hsi hsid (by intro c hc; injection hc with hc; subst hc; rfl)]
  simp only [Option.bind_eq_bind, Option.some_bind]
  rw [consumeLit_single.mpr rfl]
  simp only [Option.bind_eq_bind, Option.some_bind]
  rw [takeDigits1_build hsf hsfd hr]
  simp only [Option.bind_eq_bind, Option.some_bind]

/-- A successful clock match decomposes its input as a clock-shaped string. -/
theorem matchClockAt_some {s h m si sf : Str}
    (hma : matchClockAt s = some (h, m, si, sf)) :
    ∃ rest, s = clockString h m si sf rest ∧
      h ≠ [] ∧ (∀ c ∈ h, Char.isDigit c) ∧ m ≠ [] ∧ (∀ c ∈ m, Char.isDigit c) ∧
      si ≠ [] ∧ (∀ c ∈ si, Char.isDigit c) ∧
      sf ≠ [] ∧ (∀ c ∈ sf, Char.isDigit c) := by
  unfold matchClockAt at hma
  cases e1 : takeDigits1 s with
  | none => rw [e1] at hma; cases hma
  | some hr0 =>
    rw [e1] at hma
    simp only [Option.bind_eq_bind, Option.some_bind] at hma
    cases e2 : consumeLit [':'] hr0.2 with
    | none => rw [e2] at hma; cases hma
    | some r1 =>
      rw [e2] at hma
      simp only [Option.bind_eq_bind, Option.some_bind] at hma
      cases e3 : takeDigits1 r1 with
      | none => rw [e3] at hma; cases hma
      | some mr0 =>
        rw [e3] at hma
        simp only [Option.bind_eq_bind, Option.some_bind] at hma
        cases e4 : consumeLit [':'] mr0.2 with
        | none => rw [e4] at hma; cases hma
        | some r2 =>
          rw [e4] at hma
          simp only [Option.bind_eq_bind, Option.some_bind] at hma
          cases e5 : takeDigits1 r2 with
          | none => rw [e5] at hma; cases hma
          | some sir0 =>
            rw [e5] at hma
            simp only [Option.bind_eq_bind, Option.some_bind] at hma
            cases e6 : consumeLit ['.'] sir0.2 with
            | none => rw [e6] at hma; cases hma
            | some r3 =>
              rw [e6] at hma
              simp only [Option.bind_eq_bind, Option.some_bind] at hma
              cases e7 : takeDigits1 r3 with
              | none => rw [e7] at hma; cases hma
              | some sfr0 =>
                rw [e7] at hma
                simp only [Option.bind_eq_bind, Option.some_bind, Option.some.injEq] at hma
                injection hma with hh1 hma2
                injection hma2 with hh2 hma3
                injection hma3 with hh3 hh4
                subst hh1
                subst hh2
                subst hh3
                subst hh4
                obtain ⟨hne1, hd1, hs1⟩ := takeDigits1_some e1
                obtain ⟨hne2, hd2, hs2⟩ := takeDigits1_some e3
                obtain ⟨hne3, hd3, hs3⟩ := takeDigits1_some e5
                obtain ⟨hne4, hd4, hs4⟩ := takeDigits1_some e7
                have hc1 := consumeLit_single.mp e2
                have hc2 := consumeLit_single.mp e4
                have hc3 := consumeLit_single.mp e6
                refine ⟨sfr0.2, ?_, hne1, hd1, hne2, hd2, hne3, hd3, hne4, hd4⟩
                rw [hs1, hc1, hs2, hc2, hs3, hc3, hs4]
                simp [clockString]

/-- A head-position clock match makes the unanchored search succeed. -/
theorem searchClock_head_match {s : Str} {g : Str × Str × Str × Str}
    (h : matchClockAt s = some g) (hne : s ≠ []) : searchClock s = some g := by
  cases s with
  | nil => exact absurd rfl hne
  | cons c t => rw [searchClock, h]

/-- A successful unanchored clock search yields a loose clock occurrence. -/
theorem searchClock_some_loose {s : Str} {g : Str × Str × Str × Str}
    (h : searchClock s = some g) : LooseClockMatch s := by
  induction s with
  | nil => cases h
  | cons c t ih =>
    rw [searchClock] at h
    cases e : matchClockAt (c :: t) with
    | some g2 =>
      obtain ⟨h1, m1, si1, sf1⟩ := g2
      obtain ⟨rest, hs, p1, p2, p3, p4, p5, p6, p7, p8⟩ := matchClockAt_some e
      exact ⟨[], h1, m1, si1, sf1, rest, p1, p2, p3, p4, p5, p6, p7, p8, by
        rw [← hs]; rfl⟩
    | none =>
      rw [e] at h
      obtain ⟨pre, h1, m1, si1, sf1, rest, p1, p2, p3, p4, p5, p6, p7, p8, hs⟩ := ih h
      exact ⟨c :: pre, h1, m1, si1, sf1, rest, p1, p2, p3, p4, p5, p6, p7, p8, by
        rw [hs]; rfl⟩

/-- Counterexample to C7 as stated: the input `0:5:1.5` does **not** match the
documented pattern `H+:MM:SS.mmm`, yet `parseTimestamp` returns `301.5`, not
`0`, because the code's regex is unanchored and accepts digit groups of any
width. -/
theorem c7_parseTimestamp_counterexample :
    specClockPattern "0:5:1.5".toList = false ∧
      timeToSeconds "0:5:1.5".toList = 603 / 2 ∧ (603 / 2 : ℚ) ≠ 0 := by
  refine ⟨by decide, by decide, by decide⟩

/-- **C7 (amended).**  `parseTimestamp` returns
`hours*3600 + minutes*60 + seconds.millis` on every input matching
`H+:MM:SS.mmm` (first conjunct, with the groups quantified as digit strings of
the documented widths), but it returns `0` only on inputs containing **no**
occurrence of the laxer pattern `\d+:\d+:\d+.\d+` anywhere; an input that
merely contains such an occurrence (for example with one-digit fields, or with
surrounding text) is parsed from the leftmost occurrence instead of yielding
`0`. -/
theorem c7_parseTimestamp_amended :
    (∀ h m si sf : Str, h ≠ [] → (∀ c ∈ h, Char.isDigit c) →
      m.length = 2 → (∀ c ∈ m, Char.isDigit c) →
      si.length = 2 → (∀ c ∈ si, Char.isDigit c) →
      sf.length = 3 → (∀ c ∈ sf, Char.isDigit c) →
      timeToSeconds (clockString h m si sf []) =
        (digitsToNat h : ℚ) * 3600 + (digitsToNat m : ℚ) * 60 +
          ((digitsToNat si : ℚ) + fracValue sf)) ∧
    (∀ s : Str, ¬ LooseClockMatch s → timeToSeconds s = 0) := by
  constructor
  · intro h m si sf hh hhd hml hmd hsil hsid hsfl hsfd
    have hm : m ≠ [] := by intro hc; rw [hc] at hml; cases hml
    have hsi : si ≠ [] := by intro hc; rw [hc] at hsil; cases hsil
    have hsf : sf ≠ [] := by intro hc; rw [hc] at hsfl; cases hsfl
    have hmatch : matchClockAt (clockString h m si sf []) = some (h, m, si, sf) :=
      matchClockAt_build hh hhd hm hmd hsi hsid hsf hsfd (by intro c hc; cases hc)
    have hne : clockString h m si sf [] ≠ [] := by
      obtain ⟨c, h2, rfl⟩ := List.exists_cons_of_ne_nil hh
      simp [clockString]
    unfold timeToSeconds
    rw [searchClock_head_match hmatch hne]
  · intro s hn
    unfold timeToSeconds
    cases e : searchClock s with
    | none => rfl
    | some g => exact absurd (searchClock_some_loose e) hn

/-- Witness for C7: the spec-shaped input `1:02:03.500` parses to
`3723.5` seconds. -/
theorem c7_parseTimestamp_witness :
    timeToSeconds (clockString "1".toList "02".toList "03".toList "500".toList []) =
      7447 / 2 := by
  rw [c7_parseTimestamp_amended.1 "1".toList "02".toList "03".toList "500".toList
    (by decide) (by decide) (by decide) (by decide) (by decide) (by decide)
    (by decide) (by decide)]
  decide

/-!  ## Claim C10 — segment URL derivation -/

/-- A successful `(\d+)\.vtt$` match decomposes the URL as prefix, non-empty
digit group, and the `.vtt` suffix. -/
theorem findVttNumMatch_some {s pre g : Str}
    (h : findVttNumMatch s = some (pre, g)) :
    g ≠ [] ∧ (∀ c ∈ g, Char.isDigit c) ∧ s = pre ++ g ++ vttSuffix := by
  induction s generalizing pre g with
  | nil => cases h
  | cons c rest ih =>
    rw [findVttNumMatch] at h
    split at h
    · rename_i hcond
      injection h with h
      injection h with h1 h2
      subst h1
      subst h2
      refine ⟨hcond.1, fun c hc => List.mem_takeWhile_imp hc, ?_⟩
      rw [← hcond.2]
      simp [List.takeWhile_append_dropWhile]
    · cases e : findVttNumMatch rest with
      | none => rw [e] at h; cases h
      | some pg =>
        obtain ⟨pre2, g2⟩ := pg
        rw [e] at h
        injection h with h
        injection h with h1 h2
        subst h1
        subst h2
        obtain ⟨hg, hgd, hs⟩ := ih e
        exact ⟨hg, hgd, by subst hs; simp⟩

/-- A URL that decomposes as prefix, non-empty digit group and `.vtt` ends in
a digit followed by `.vtt`. -/
theorem endsInDigitsVtt_of_decomp {pre g : Str} (hg : g ≠ [])
    (hgd : ∀ c ∈ g, Char.isDigit c) :
    endsInDigitsVtt (pre ++ g ++ vttSuffix) = true := by
  rcases List.eq_nil_or_concat g with rfl | ⟨g2, d, rfl⟩
  · exact absurd rfl hg
  · have hrev : (pre ++ g2.concat d ++ vttSuffix).reverse =
        't' :: 't' :: 'v' :: '.' :: d :: (g2.reverse ++ pre.reverse) := by
      simp [vttSuffix, List.concat_eq_append]
    unfold endsInDigitsVtt
    rw [hrev]
    exact hgd d (by simp [List.concat_eq_append])

/-- The leftmost `(\d+)\.vtt$` match on a URL of the shape
`prefix ++ digits ++ ".vtt"`, where the prefix does not itself end in a digit,
is exactly that digit group. -/
theorem findVttNumMatch_build {pre g : Str} (hg : g ≠ [])
    (hgd : ∀ c ∈ g, Char.isDigit c)
    (hpre : ∀ c, pre.getLast? = some c → Char.isDigit c = false) :
    findVttNumMatch (pre ++ g ++ vttSuffix) = some (pre, g) := by
  induction pre with
  | nil =>
    obtain ⟨gc, g2, rfl⟩ := List.exists_cons_of_ne_nil hg
    have htW : ((gc :: g2) ++ vttSuffix).takeWhile Char.isDigit = gc :: g2 := by
      rw [List.takeWhile_append_of_pos hgd]
      simp [vttSuffix]
    have hdW : ((gc :: g2) ++ vttSuffix).dropWhile Char.isDigit = vttSuffix := by
      rw [List.dropWhile_append_of_pos hgd]
      simp [vttSuffix]
    simp only [List.nil_append] at htW hdW ⊢
    rw [List.cons_append] at htW hdW ⊢
    rw [findVttNumMatch, if_pos ⟨by rw [htW]; simp, hdW⟩, htW]
  | cons c pre2 ih =>
    have hpre2 : ∀ d, pre2.getLast? = some d → Char.isDigit d = false := by
      intro d hd
      apply hpre
      cases pre2 with
      | nil => cases hd
      | cons x xs => rw [List.getLast?_cons_cons]; exact hd
    have hne : (c :: pre2) ≠ ([] : Str) := by simp
    have hcond : ¬ ((c :: (pre2 ++ (g ++ vttSuffix))).takeWhile Char.isDigit ≠ [] ∧
        (c :: (pre2 ++ (g ++ vttSuffix))).dropWhile Char.isDigit = vttSuffix) := by
      rintro ⟨h1, h2⟩
      have hsplit : (c :: (pre2 ++ (g ++ vttSuffix))).takeWhile Char.isDigit ++
          (c :: (pre2 ++ (g ++ vttSuffix))).dropWhile Char.isDigit =
          c :: (pre2 ++ (g ++ vttSuffix)) :=
        List.takeWhile_append_dropWhile Char.isDigit _
      rw [h2] at hsplit
      have hshape : c :: (pre2 ++ (g ++ vttSuffix)) = ((c :: pre2) ++ g) ++ vttSuffix := by
        simp
      rw [hshape] at hsplit
      have htWeq := List.append_cancel_right hsplit
      have hlast := List.getLast_mem hne
      have hdig : Char.isDigit ((c :: pre2).getLast hne) = true := by
        apply List.mem_takeWhile_imp (p := Char.isDigit)
        rw [htWeq]
        exact List.mem_append.2 (Or.inl hlast)
      rw [hpre _ (List.getLast?_eq_getLast _ hne)] at hdig
      cases hdig
    rw [List.append_assoc, List.cons_append]
    rw [findVttNumMatch, if_neg hcond]
    rw [← List.append_assoc, ih hpre2]

/-- **C10.**  The fetcher derives segment `i`'s URL by substituting `i` for
the trailing digit token of a `<prefix><digits>.vtt` template (first and third
conjuncts), and on any template that does not end in digits followed by `.vtt`
the substitution is the identity, so every loop iteration requests the same
URL whatever the index (second conjunct). -/
theorem c10_segUrl_derivation :
    (∀ s i, endsInDigitsVtt s = false → segUrl s i = s) ∧
    (∀ s i j, endsInDigitsVtt s = false → segUrl s i = segUrl s j) ∧
    (∀ pre g i, g ≠ [] → (∀ c ∈ g, Char.isDigit c) →
      (∀ c, pre.getLast? = some c → Char.isDigit c = false) →
      segUrl (pre ++ g ++ vttSuffix) i = pre ++ Nat.toDigits 10 i ++ vttSuffix) := by
  have hid : ∀ s i, endsInDigitsVtt s = false → segUrl s i = s := by
    intro s i hend
    unfold segUrl
    cases e : findVttNumMatch s with
    | none => rfl
    | some pg =>
      obtain ⟨pre, g⟩ := pg
      obtain ⟨hg, hgd, rfl⟩ := findVttNumMatch_some e
      rw [endsInDigitsVtt_of_decomp hg hgd] at hend
      cases hend
  refine ⟨hid, fun s i j h => by rw [hid s i h, hid s j h], ?_⟩
  intro pre g i hg hgd hpre
  unfold segUrl
  rw [findVttNumMatch_build hg hgd hpre]

/-- Witness for C10: the template `https://cdn/seg1.vtt` maps to
`https://cdn/seg2.vtt` at index 2, while the digit-free template
`https://cdn/master` is left unchanged at any index. -/
theorem c10_segUrl_witness :
    segUrl "https://cdn/seg1.vtt".toList 2 = "https://cdn/seg2.vtt".toList ∧
      segUrl "https://cdn/master".toList 5 = "https://cdn/master".toList := by
  constructor
  · have hshape : "https://cdn/seg1.vtt".toList =
        "https://cdn/seg".toList ++ "1".toList ++ vttSuffix := by decide
    rw [hshape, c10_segUrl_derivation.2.2 "https://cdn/seg".toList "1".toList 2
      (by decide) (by decide) (by decide)]
    decide
  · exact c10_segUrl_derivation.1 "https://cdn/master".toList 5 (by decide)

/-!  ## Fetch-loop lemmas shared by C1, C6 and C9 -/

/-- More fuel never changes a run that already terminated. -/
theorem fetchRun_mono {net : Str → Nat → Except Str Str} {baseUrl : Str} :
    ∀ fuel fuel2 (s : FetchState) (r : Str × List Nat), fuel ≤ fuel2 →
      fetchRun net baseUrl fuel s = some r → fetchRun net baseUrl fuel2 s = some r := by
  intro fuel
  induction fuel with
  | zero => intro fuel2 s r _ h; cases h
  | succ n ih =>
    intro fuel2 s r hle h
    obtain ⟨m, rfl⟩ : ∃ m, fuel2 = m + 1 := ⟨fuel2 - 1, by omega⟩
    rw [fetchRun] at h ⊢
    cases e : fetchStepF net baseUrl s with
    | halt a d => rw [e] at h; exact h
    | next s2 =>
      rw [e] at h
      exact ih m s2 r (by omega) h

/-- Run-unfolding: a continuing step consumes one unit of fuel. -/
theorem fetchRun_next {net : Str → Nat → Except Str Str} {baseUrl : Str}
    {fuel : Nat} {s s2 : FetchState} (h : fetchStepF net baseUrl s = .next s2) :
    fetchRun net baseUrl (fuel + 1) s = fetchRun net baseUrl fuel s2 := by
  rw [fetchRun, h]

/-- Run-unfolding: a halting step ends the run. -/
theorem fetchRun_halt {net : Str → Nat → Except Str Str} {baseUrl : Str}
    {fuel : Nat} {s : FetchState} {a : Str} {d : List Nat}
    (h : fetchStepF net baseUrl s = .halt a d) :
    fetchRun net baseUrl (fuel + 1) s = some (a, d) := by
  rw [fetchRun, h]

/-- A halted iteration returns the current buffer and delay trace. -/
theorem fetchStepF_halt_eq {net : Str → Nat → Except Str Str} {baseUrl : Str}
    {s : FetchState} {a : Str} {d : List Nat}
    (h : fetchStepF net baseUrl s = .halt a d) :
    a = s.allContent ∧ d = s.delays := by
  unfold fetchStepF at h
  cases hnet : net (segUrl baseUrl s.index) s.retryCount with
  | ok text =>
    rw [hnet] at h
    simp only [] at h
    split at h
    · cases h
    · injection h with h1 h2; exact ⟨h1.symm, h2.symm⟩
  | error msg =>
    rw [hnet] at h
    simp only [] at h
    split at h
    · injection h with h1 h2; exact ⟨h1.symm, h2.symm⟩
    · split at h
      · injection h with h1 h2; exact ⟨h1.symm, h2.symm⟩
      · cases h

/-- A continuing iteration either keeps the buffer (a retry) or appends one
validator-approved segment text followed by `\n`. -/
theorem fetchStepF_next_acc {net : Str → Nat → Except Str Str} {baseUrl : Str}
    {s s2 : FetchState} (h : fetchStepF net baseUrl s = .next s2) :
    s2.allContent = s.allContent ∨
      ∃ t, (validateVTTContentDetailed t).isValid = true ∧
        s2.allContent = s.allContent ++ t ++ ['\n'] := by
  unfold fetchStepF at h
  cases hnet : net (segUrl baseUrl s.index) s.retryCount with
  | ok text =>
    rw [hnet] at h
    simp only [] at h
    split at h
    · rename_i hval
      injection h with h1
      exact Or.inr ⟨text, hval, by rw [← h1]⟩
    · cases h
  | error msg =>
    rw [hnet] at h
    simp only [] at h
    split at h
    · cases h
    · split at h
      · cases h
      · injection h with h1
        exact Or.inl (by rw [← h1])

/-- A document trims to nothing iff all of it is whitespace. -/
theorem jsTrim_eq_nil_iff {s : Str} :
    jsTrim s = [] ↔ ∀ c ∈ s, isWsChar c = true := by
  unfold jsTrim
  rw [List.reverse_eq_nil_iff, List.dropWhile_eq_nil_iff]
  constructor
  · intro h c hc
    have hsplit := List.takeWhile_append_dropWhile isWsChar s
    rw [← hsplit] at hc
    rcases List.mem_append.1 hc with h1 | h2
    · exact List.mem_takeWhile_imp h1
    · exact h c (by simpa using h2)
  · intro h c hc
    exact h c ((List.dropWhile_suffix isWsChar).subset (by simpa using hc))

/-- A validator-approved document does not trim to nothing. -/
theorem validate_isValid_trim_ne {t : Str}
    (h : (validateVTTContentDetailed t).isValid = true) : jsTrim t ≠ [] := by
  intro htrim
  unfold validateVTTContentDetailed at h
  rw [if_pos htrim] at h
  cases h

/-- The empty buffer satisfies the accumulation invariant. -/
theorem accValid_nil : AccValid [] := ⟨[], rfl, by simp⟩

/-- Appending a validator-approved segment preserves the invariant. -/
theorem accValid_append {acc t : Str} (ha : AccValid acc)
    (hv : (validateVTTContentDetailed t).isValid = true) :
    AccValid (acc ++ t ++ ['\n']) := by
  obtain ⟨texts, rfl, hvs⟩ := ha
  refine ⟨texts ++ [t], by simp, ?_⟩
  intro u hu
  rcases List.mem_append.1 hu with h1 | h2
  · exact hvs u h1
  · rw [List.mem_singleton.1 h2]; exact hv

/-- Under the invariant, the buffer trims to nothing iff it is empty. -/
theorem accValid_trim_nil_iff {acc : Str} (h : AccValid acc) :
    jsTrim acc = [] ↔ acc = [] := by
  constructor
  · intro htrim
    obtain ⟨texts, rfl, hvs⟩ := h
    cases texts with
    | nil => rfl
    | cons t ts =>
      exfalso
      have hws := jsTrim_eq_nil_iff.1 htrim
      have htws : jsTrim t = [] := by
        rw [jsTrim_eq_nil_iff]
        intro c hc
        exact hws c (by simp [hc])
      exact validate_isValid_trim_ne (hvs t (by simp)) htws
  · rintro rfl; rfl

/-- The accumulation invariant is preserved through any terminating run. -/
theorem fetchRun_accValid {net : Str → Nat → Except Str Str} {baseUrl : Str} :
    ∀ (fuel : Nat) (s : FetchState) (acc : Str) (d : List Nat),
      AccValid s.allContent → fetchRun net baseUrl fuel s = some (acc, d) →
      AccValid acc := by
  intro fuel
  induction fuel with
  | zero => intro s acc d _ h; cases h
  | succ n ih =>
    intro s acc d hA h
    rw [fetchRun] at h
    cases e : fetchStepF net baseUrl s with
    | halt a dd =>
      rw [e] at h
      injection h with h
      injection h with h1 h2
      subst h1
      rw [(fetchStepF_halt_eq e).1]
      exact hA
    | next s2 =>
      rw [e] at h
      refine ih s2 acc d ?_ h
      rcases fetchStepF_next_acc e with heq | ⟨t, hv, heq⟩
      · rw [heq]; exact hA
      · rw [heq]; exact accValid_append hA hv

/-!  ## Claim C6 — hard failure iff empty accumulation -/

/-- **C6.**  A terminating fetch raises the hard failure exactly when the
accumulation buffer is empty after the segment loop ends; when at least one
valid segment was accumulated, the accumulated document is returned even
though later segments failed. -/
theorem c6_hard_failure_iff :
    ∀ (net : Str → Nat → Except Str Str) (baseUrl : Str) (fuel : Nat)
      (acc : Str) (d : List Nat),
      fetchRun net baseUrl fuel initFetchState = some (acc, d) →
      (fetchAllVTTs net baseUrl fuel = some (.error hardFailMsg, d) ↔ acc = []) ∧
      (acc ≠ [] → fetchAllVTTs net baseUrl fuel = some (.ok acc, d)) := by
  intro net baseUrl fuel acc d hrun
  have hA : AccValid acc := fetchRun_accValid fuel initFetchState acc d accValid_nil hrun
  have hiff := accValid_trim_nil_iff hA
  have hfae : fetchAllVTTs net baseUrl fuel =
      (if jsTrim acc = [] then some (Except.error hardFailMsg, d)
       else some (Except.ok acc, d)) := by
    unfold fetchAllVTTs
    rw [hrun]
  constructor
  · constructor
    · intro hfa
      rw [hfae] at hfa
      split at hfa
      · exact hiff.1 (by assumption)
      · simp at hfa
    · intro hacc
      rw [hfae, if_pos (hiff.2 hacc)]
  · intro hne
    rw [hfae, if_neg (fun hx => hne (hiff.1 hx))]

/-- Witness for C6: with every request answered by HTTP 404, the loop halts at
once with an empty buffer and the fetch raises the hard failure. -/
theorem c6_hard_failure_witness :
    fetchAllVTTs net404 urlC1 1 = some (.error hardFailMsg, []) := by
  have hrun : fetchRun net404 urlC1 1 initFetchState = some ([], []) := by decide
  exact ((c6_hard_failure_iff net404 urlC1 1 [] [] hrun).1).2 rfl

/-!  ## Claim C1 — retry policy and backoff trace -/

/-- Counterexample to C1 as stated: when segment 2 times out three times after
segment 1 succeeded, the loop waits the delays `[1000, 2000]` — `d` and `2d`
only, not `d, 2d, 4d`: the third failure exhausts the cap without a further
wait. -/
theorem c1_delay_sequence_counterexample :
    fetchAllVTTs netC1 urlC1 5 = some (.ok (vttDoc1 ++ ['\n']), [1000, 2000]) ∧
      ([1000, 2000] : List Nat) ≠ [1000, 2000, 4000] := by
  refine ⟨by decide, by decide⟩

/-- **C1 (amended).**  On a failure that is not a not-found, the fetcher
increments the per-segment retry counter and, while it is still below the
maximum 3, waits `base * 2^(attempt-1)` milliseconds and retries the same
index (first conjunct; the state keeps its `index`).  When segment 2 fails
three times consecutively after segment 1 succeeded, the fetch terminates with
segment 1's content only, having waited the two increasing delays `d, 2d`
between the three attempts — not three delays `d, 2d, 4d`. -/
theorem c1_retry_policy_amended :
    (∀ (net : Str → Nat → Except Str Str) (baseUrl : Str) (s : FetchState) (msg : Str),
      net (segUrl baseUrl s.index) s.retryCount = .error msg →
      isNotFoundMsg msg = false → s.retryCount + 1 < maxRetries →
      fetchStepF net baseUrl s =
        .next { s with retryCount := s.retryCount + 1, delays := s.delays ++ [1000 * 2 ^ (s.retryCount + 1 - 1)] }) ∧
    (∀ (net : Str → Nat → Except Str Str) (baseUrl : Str) (doc m0 m1 m2 : Str)
      (fuel : Nat), 4 ≤ fuel →
      (validateVTTContentDetailed doc).isValid = true →
      net (segUrl baseUrl 1) 0 = .ok doc →
      net (segUrl baseUrl 2) 0 = .error m0 → isNotFoundMsg m0 = false →
      net (segUrl baseUrl 2) 1 = .error m1 → isNotFoundMsg m1 = false →
      net (segUrl baseUrl 2) 2 = .error m2 → isNotFoundMsg m2 = false →
      fetchAllVTTs net baseUrl fuel = some (.ok (doc ++ ['\n']), [1000, 2000])) := by
  have hstep : ∀ (net : Str → Nat → Except Str Str) (baseUrl : Str)
      (s : FetchState) (msg : Str),
      net (segUrl baseUrl s.index) s.retryCount = .error msg →
      isNotFoundMsg msg = false → s.retryCount + 1 < maxRetries →
      fetchStepF net baseUrl s =
        .next { s with retryCount := s.retryCount + 1, delays := s.delays ++ [1000 * 2 ^ (s.retryCount + 1 - 1)] } := by
    intro net baseUrl s msg hnet hnf hlt
    unfold fetchStepF
    simp only [hnet]
    rw [if_neg (by simp [hnf]), if_neg (by omega)]
  refine ⟨hstep, ?_⟩
  intro net baseUrl doc m0 m1 m2 fuel hfuel hval hn1 hn2 hm0 hn3 hm1 hn4 hm2
  have e1 : fetchStepF net baseUrl initFetchState =
      .next { index := 2, retryCount := 0, allContent := doc ++ ['\n'], delays := [] } := by
    unfold fetchStepF initFetchState
    simp only [hn1]
    rw [if_pos hval]
    simp
  have e2 : fetchStepF net baseUrl
      { index := 2, retryCount := 0, allContent := doc ++ ['\n'], delays := [] } =
      .next { index := 2, retryCount := 1, allContent := doc ++ ['\n'], delays := [1000] } := by
    unfold fetchStepF
    simp only [hn2]
    rw [if_neg (by simp [hm0]), if_neg (by decide)]
    norm_num
  have e3 : fetchStepF net baseUrl
      { index := 2, retryCount := 1, allContent := doc ++ ['\n'], delays := [1000] } =
      .next { index := 2, retryCount := 2, allContent := doc ++ ['\n'], delays := [1000, 2000] } := by
    unfold fetchStepF
    simp only [hn3]
    rw [if_neg (by simp [hm1]), if_neg (by decide)]
    norm_num
  have e4 : fetchStepF net baseUrl
      { index := 2, retryCount := 2, allContent := doc ++ ['\n'], delays := [1000, 2000] } =
      .halt (doc ++ ['\n']) [1000, 2000] := by
    unfold fetchStepF
    simp only [hn4]
    rw [if_neg (by simp [hm2]), if_pos (by decide)]
  have hrun : fetchRun net baseUrl 4 initFetchState =
      some (doc ++ ['\n'], [1000, 2000]) := by
    rw [fetchRun_next e1, fetchRun_next e2, fetchRun_next e3, fetchRun_halt e4]
  have hrunF := fetchRun_mono 4 fuel initFetchState (doc ++ ['\n'], [1000, 2000]) hfuel hrun
  have htrimne : ¬ jsTrim (doc ++ ['\n']) = [] := by
    intro htrim
    apply validate_isValid_trim_ne hval
    rw [jsTrim_eq_nil_iff]
    intro c hc
    exact jsTrim_eq_nil_iff.1 htrim c (by simp [hc])
  have hfae : fetchAllVTTs net baseUrl fuel =
      (if jsTrim (doc ++ ['\n']) = [] then some (Except.error hardFailMsg, [1000, 2000])
       else some (Except.ok (doc ++ ['\n']), [1000, 2000])) := by
    unfold fetchAllVTTs
    rw [hrunF]
  rw [hfae, if_neg htrimne]

/-- Witness for C1: the amended scenario applied to the concrete timeout
oracle at fuel 6. -/
theorem c1_retry_policy_witness :
    fetchAllVTTs netC1 urlC1 6 = some (.ok (vttDoc1 ++ ['\n']), [1000, 2000]) := by
  exact c1_retry_policy_amended.2 netC1 urlC1 vttDoc1
    "Fetch timeout for https://cdn/seg2.vtt".toList
    "Fetch timeout for https://cdn/seg2.vtt".toList
    "Fetch timeout for https://cdn/seg2.vtt".toList
    6 (by omega) (by decide) (by decide) (by decide) (by decide) (by decide)
    (by decide) (by decide) (by decide)

/-!  ## Claim C9 — not-found versus transient classification -/

/-- **C9.**  At the first attempt for a segment, a fetch failure halts the
sequence cleanly (same buffer, no delay recorded) **iff** its message contains
`404` or `NoSuchKey` (first conjunct); any other failure is retried with a
backoff step while under the cap (second conjunct) and halts only when the cap
is reached (third conjunct).  `enhancedFetch` converts every non-ok HTTP
status into a thrown `HTTP <status>: <statusText>` error (fourth conjunct),
and the messages for 403 and 500 are classified transient while 404's message
is classified not-found (fifth conjunct). -/
theorem c9_notfound_classification :
    (∀ (net : Str → Nat → Except Str Str) (baseUrl : Str) (s : FetchState) (msg : Str),
      net (segUrl baseUrl s.index) s.retryCount = .error msg → s.retryCount = 0 →
      (fetchStepF net baseUrl s = .halt s.allContent s.delays ↔
        isNotFoundMsg msg = true)) ∧
    (∀ (net : Str → Nat → Except Str Str) (baseUrl : Str) (s : FetchState) (msg : Str),
      net (segUrl baseUrl s.index) s.retryCount = .error msg →
      isNotFoundMsg msg = false → s.retryCount + 1 < maxRetries →
      fetchStepF net baseUrl s =
        .next { s with retryCount := s.retryCount + 1, delays := s.delays ++ [1000 * 2 ^ (s.retryCount + 1 - 1)] }) ∧
    (∀ (net : Str → Nat → Except Str Str) (baseUrl : Str) (s : FetchState) (msg : Str),
      net (segUrl baseUrl s.index) s.retryCount = .error msg →
      isNotFoundMsg msg = false → maxRetries ≤ s.retryCount + 1 →
      fetchStepF net baseUrl s = .halt s.allContent s.delays) ∧
    (∀ (url : Str) (status : Nat) (statusText body : Str),
      ¬ (200 ≤ status ∧ status ≤ 299) →
      enhancedFetch url (.response status statusText body) =
        .error (httpErrorMsg status statusText)) ∧
    (isNotFoundMsg (httpErrorMsg 403 "Forbidden".toList) = false ∧
      isNotFoundMsg (httpErrorMsg 500 "Internal Server Error".toList) = false ∧
      isNotFoundMsg (httpErrorMsg 404 "Not Found".toList) = true) := by
  have hretry : ∀ (net : Str → Nat → Except Str Str) (baseUrl : Str)
      (s : FetchState) (msg : Str),
      net (segUrl baseUrl s.index) s.retryCount = .error msg →
      isNotFoundMsg msg = false → s.retryCount + 1 < maxRetries →
      fetchStepF net baseUrl s =
        .next { s with retryCount := s.retryCount + 1, delays := s.delays ++ [1000 * 2 ^ (s.retryCount + 1 - 1)] } := by
    intro net baseUrl s msg hnet hnf hlt
    unfold fetchStepF
    simp only [hnet]
    rw [if_neg (by simp [hnf]), if_neg (by omega)]
  refine ⟨?_, hretry, ?_, ?_, by decide, by decide, by decide⟩
  · intro net baseUrl s msg hnet hz
    constructor
    · intro hhalt
      cases hnf : isNotFoundMsg msg with
      | true => rfl
      | false =>
        rw [hretry net baseUrl s msg hnet hnf (by unfold maxRetries; omega)] at hhalt
        cases hhalt
    · intro hnf
      unfold fetchStepF
      simp only [hnet]
      rw [if_pos (by simp [hnf])]
  · intro net baseUrl s msg hnet hnf hge
    unfold fetchStepF
    simp only [hnet]
    rw [if_neg (by simp [hnf]), if_pos (by omega)]
  · intro url status statusText body hstat
    simp only [enhancedFetch]
    rw [if_neg hstat]

/-- Witness for C9: the all-404 oracle halts the loop at the initial state
with an empty buffer and no delay. -/
theorem c9_notfound_witness :
    fetchStepF net404 urlC1 initFetchState = .halt [] [] := by
  exact ((c9_notfound_classification.1 net404 urlC1 initFetchState
    (httpErrorMsg 404 "Not Found".toList) rfl rfl).2 (by decide))

/-!  ## Claim C2 — cue invariants of the parser -/

/-- The first element remaining after `dropWhile` fails the predicate. -/
theorem dropWhile_head_false {p : Char → Bool} {l : Str} {x : Char} {xs : Str}
    (h : l.dropWhile p = x :: xs) : p x = false := by
  induction l with
  | nil => cases h
  | cons a t ih =>
    rw [List.dropWhile_cons] at h
    by_cases hp : p a = true
    · rw [if_pos hp] at h
      exact ih h
    · rw [if_neg hp] at h
      injection h with h1 _
      subst h1
      simp only [Bool.not_eq_true] at hp
      exact hp

/-- A non-empty trimmed string contains a non-whitespace character. -/
theorem jsTrim_has_nonws {x : Str} (h : jsTrim x ≠ []) :
    ∃ ch ∈ jsTrim x, isWsChar ch = false := by
  set a := x.dropWhile isWsChar with ha
  have hane : a ≠ [] := by
    intro hnil
    apply h
    unfold jsTrim
    rw [← ha, hnil]
    rfl
  obtain ⟨ah, at2, hcons⟩ := List.exists_cons_of_ne_nil hane
  have hah : isWsChar ah = false := dropWhile_head_false (ha ▸ hcons)
  have hsufne : a.reverse.dropWhile isWsChar ≠ [] := by
    intro hnil
    apply h
    unfold jsTrim
    rw [← ha, hnil]
    rfl
  obtain ⟨t, ht⟩ := List.dropWhile_suffix (l := a.reverse) isWsChar
  have hlast : (a.reverse.dropWhile isWsChar).getLast? = a.reverse.getLast? := by
    conv_rhs => rw [← ht]
    rw [List.getLast?_append_of_ne_nil t hsufne]
  have hrevlast : a.reverse.getLast? = some ah := by
    rw [hcons]
    simp
  have hmem : ah ∈ a.reverse.dropWhile isWsChar := by
    apply List.mem_of_mem_getLast?
    rw [hlast, hrevlast]
    rfl
  refine ⟨ah, ?_, hah⟩
  unfold jsTrim
  rw [← ha]
  simpa using hmem

/-- Membership in a guarded push: either the pushed cue (with its guard) or
the old list. -/
theorem mem_pushCue {c cu : Cue} {rest : List Cue} (h : c ∈ pushCue cu rest) :
    (c = cu ∧ cu.text ≠ []) ∨ c ∈ rest := by
  unfold pushCue at h
  split at h
  · exact Or.inr h
  · rcases List.mem_cons.1 h with rfl | hr
    · rename_i hne
      exact Or.inl ⟨rfl, hne⟩
    · exact Or.inr hr

/-- `pushCue` distributes over appending a tail of cues. -/
theorem pushCue_append (cu : Cue) (a b : List Cue) :
    pushCue cu (a ++ b) = pushCue cu a ++ b := by
  unfold pushCue
  split
  · rfl
  · rfl

/-- Every cue produced by the parse loop, in any mode, has non-empty text
containing a non-whitespace character. -/
theorem parseAux_text_invariant :
    ∀ (lines : List Str) (m : PMode) (c : Cue), c ∈ parseAux lines m →
      c.text ≠ [] ∧ ∃ ch ∈ c.text, isWsChar ch = false := by
  intro lines
  induction lines with
  | nil =>
    intro m c h
    cases m with
    | scanning => cases h
    | collecting st en acc =>
      rcases mem_pushCue h with ⟨rfl, hne⟩ | hmem
      · exact ⟨hne, jsTrim_has_nonws hne⟩
      · cases hmem
  | cons l rest ih =>
    intro m c h
    cases m with
    | scanning =>
      rw [parseAux] at h
      split at h
      · exact ih _ c h
      · exact ih _ c h
    | collecting st en acc =>
      rw [parseAux] at h
      split at h
      · rcases mem_pushCue h with ⟨rfl, hne⟩ | hmem
        · exact ⟨hne, jsTrim_has_nonws hne⟩
        · exact ih _ c hmem
      · exact ih _ c h

/-- Counterexample to C2 as stated: the parser emits a cue whose `endTime`
(1 s) precedes its `startTime` (2 s) from a header written backwards — the
`endTime > startTime` half of the invariant is not enforced. -/
theorem c2_cue_invariant_counterexample :
    ∃ c ∈ parseVTT c2CexDoc, ¬ c.startTime < c.endTime := by
  decide

/-- **C2 (amended).**  Every cue emitted by the parser has non-empty text
containing at least one non-whitespace character (a cue whose text trims to
nothing is discarded); the parser does **not** guarantee
`endTime > startTime`. -/
theorem c2_cue_text_invariant :
    ∀ (vtt : Str) (c : Cue), c ∈ parseVTT vtt →
      c.text ≠ [] ∧ ∃ ch ∈ c.text, isWsChar ch = false := by
  intro vtt c h
  exact parseAux_text_invariant (splitLines vtt) .scanning c h

/-- Witness for C2: the cue parsed from the well-formed document has the
invariant. -/
theorem c2_cue_text_witness :
    ∃ c, c ∈ parseVTT c2WitnessDoc ∧ c.text ≠ [] ∧
      ∃ ch ∈ c.text, isWsChar ch = false := by
  have hm : c2WitnessCue ∈ parseVTT c2WitnessDoc := by decide
  obtain ⟨h1, h2⟩ := c2_cue_text_invariant c2WitnessDoc c2WitnessCue hm
  exact ⟨c2WitnessCue, hm, h1, h2⟩

/-!  ## Claim C8 — parsing segment concatenations -/

/-- `getLast?` ignores a cons onto a non-empty list. -/
theorem getLast?_cons_of_ne {α : Type} (c : α) {l : List α} (h : l ≠ []) :
    (c :: l).getLast? = l.getLast? := by
  cases l with
  | nil => exact absurd rfl h
  | cons x xs => exact List.getLast?_cons_cons

/-- `consHead` only touches the first chunk. -/
theorem consHead_append {c : Char} {ls ys : List Str} (h : ls ≠ []) :
    consHead c (ls ++ ys) = consHead c ls ++ ys := by
  cases ls with
  | nil => exact absurd rfl h
  | cons l0 ls2 => rfl

/-- `splitChar` never returns the empty chunk list. -/
theorem splitChar_ne_nil (sep : Char) : ∀ s : Str, splitChar sep s ≠ [] := by
  intro s
  induction s with
  | nil => simp [splitChar]
  | cons c rest ih =>
    rw [splitChar]
    split
    · simp
    · unfold consHead
      cases h : splitChar sep rest with
      | nil => simp
      | cons l ls => simp

/-- Splitting at a separator occurrence concatenates the two splits. -/
theorem splitChar_append_sep (sep : Char) (b : Str) : ∀ a : Str,
    splitChar sep (a ++ sep :: b) = splitChar sep a ++ splitChar sep b := by
  intro a
  induction a with
  | nil =>
    show splitChar sep (sep :: b) = [[]] ++ splitChar sep b
    rw [splitChar, if_pos rfl]
    rfl
  | cons c a2 ih =>
    rw [List.cons_append, splitChar, splitChar]
    by_cases hc : c = sep
    · rw [if_pos hc, if_pos hc, ih]
      rfl
    · rw [if_neg hc, if_neg hc, ih]
      exact consHead_append (splitChar_ne_nil sep a2)

/-- Newline normalisation distributes over a `\n` that follows a string not
ending in `\r`. -/
theorem normalizeNewlines_append_nl (b : Str) : ∀ a : Str,
    (∀ c, a.getLast? = some c → c ≠ '\r') →
    normalizeNewlines (a ++ '\n' :: b) =
      normalizeNewlines a ++ '\n' :: normalizeNewlines b := by
  intro a
  induction a using normalizeNewlines.induct with
  | case1 =>
    intro _
    show normalizeNewlines ('\n' :: b) = '\n' :: normalizeNewlines b
    rw [normalizeNewlines.eq_3 _ _ (by intro r1 hc _; exact absurd hc (by decide))]
  | case2 rest ih =>
    intro hlast
    have hrest : ∀ c, rest.getLast? = some c → c ≠ '\r' := by
      intro c hc
      apply hlast
      have hne : rest ≠ [] := by intro hcontra; rw [hcontra] at hc; cases hc
      rw [List.getLast?_cons_cons, getLast?_cons_of_ne '\n' hne]
      exact hc
    show '\n' :: normalizeNewlines (rest ++ '\n' :: b) =
      ('\n' :: normalizeNewlines rest) ++ '\n' :: normalizeNewlines b
    rw [ih hrest]
    rfl
  | case3 c rest hnot ih =>
    intro hlast
    have hrest : ∀ d, rest.getLast? = some d → d ≠ '\r' := by
      intro d hd
      apply hlast
      have hne : rest ≠ [] := by intro hcontra; rw [hcontra] at hd; cases hd
      rw [getLast?_cons_of_ne c hne]
      exact hd
    have hcond : ∀ r1 : Str, c = '\r' → rest ++ '\n' :: b = '\n' :: r1 → False := by
      intro r1 hc hr
      cases rest with
      | nil => exact hlast c rfl hc
      | cons r0 rs =>
        rw [List.cons_append] at hr
        injection hr with hr0 _
        exact hnot rs hc (by rw [hr0])
    rw [List.cons_append, normalizeNewlines.eq_3 _ _ hcond,
      normalizeNewlines.eq_3 _ _ hnot, ih hrest]
    rfl

/-- Line splitting distributes over a `\n` that follows a string not ending in
`\r`. -/
theorem splitLines_append_nl {a b : Str}
    (ha : ∀ c, a.getLast? = some c → c ≠ '\r') :
    splitLines (a ++ '\n' :: b) = splitLines a ++ splitLines b := by
  unfold splitLines
  rw [normalizeNewlines_append_nl b a ha, splitChar_append_sep]

/-- A string ending in `\n` splits into lines ending with a blank line. -/
theorem splitLines_ends_blank : ∀ s : Str, s.getLast? = some '\n' →
    ∃ L, L ≠ [] ∧ splitLines s = L ++ [[]] := by
  intro s
  unfold splitLines
  induction s using normalizeNewlines.induct with
  | case1 => intro h; cases h
  | case2 rest ih =>
    intro h
    show ∃ L, L ≠ [] ∧ splitChar '\n' ('\n' :: normalizeNewlines rest) = L ++ [[]]
    rw [splitChar, if_pos rfl]
    cases hr : rest with
    | nil =>
      exact ⟨[[]], by simp, rfl⟩
    | cons r0 rs =>
      subst hr
      have hlast : (r0 :: rs).getLast? = some '\n' := by
        rw [List.getLast?_cons_cons, List.getLast?_cons_cons] at h
        exact h
      obtain ⟨L, hLne, hL⟩ := ih hlast
      exact ⟨[] :: L, by simp, by rw [hL]; rfl⟩
  | case3 c rest hnot ih =>
    intro h
    rw [normalizeNewlines.eq_3 _ _ hnot]
    cases hr : rest with
    | nil =>
      subst hr
      simp only [List.getLast?_singleton, Option.some.injEq] at h
      subst h
      exact ⟨[[]], by simp, rfl⟩
    | cons r0 rs =>
      subst hr
      have hlast : (r0 :: rs).getLast? = some '\n' := by
        rw [List.getLast?_cons_cons] at h
        exact h
      obtain ⟨L, hLne, hL⟩ := ih hlast
      rw [splitChar]
      by_cases hc : c = '\n'
      · rw [if_pos hc, hL]
        exact ⟨[] :: L, by simp, rfl⟩
      · rw [if_neg hc, hL, consHead_append hLne]
        refine ⟨consHead c L, ?_, rfl⟩
        cases L with
        | nil => exact absurd rfl hLne
        | cons l0 ls => simp [consHead]

/-- A trailing blank line does not change the parse, in any mode. -/
theorem parseAux_append_blank : ∀ (X : List Str) (m : PMode),
    parseAux (X ++ [[]]) m = parseAux X m := by
  intro X
  induction X with
  | nil =>
    intro m
    cases m with
    | scanning => rfl
    | collecting st en acc => rfl
  | cons l X2 ih =>
    intro m
    cases m with
    | scanning =>
      rw [List.cons_append, parseAux, parseAux]
      by_cases hts : isTimestampLine (jsTrim l) = true
      · rw [if_pos hts, if_pos hts]
        exact ih _
      · rw [if_neg hts, if_neg hts]
        exact ih _
    | collecting st en acc =>
      rw [List.cons_append, parseAux, parseAux]
      by_cases hb : jsTrim l = []
      · rw [if_pos hb, if_pos hb, ih _]
      · rw [if_neg hb, if_neg hb]
        exact ih _

/-- The parse of lines split by a blank line is the parse up to the blank
followed by a fresh parse of the rest. -/
theorem parseAux_split_at_blank : ∀ (X : List Str) (m : PMode) (Y : List Str),
    parseAux (X ++ [] :: Y) m = parseAux (X ++ [[]]) m ++ parseAux Y .scanning := by
  intro X
  induction X with
  | nil =>
    intro m Y
    cases m with
    | scanning =>
      rw [List.nil_append, List.nil_append, parseAux, if_neg (by decide)]
      rfl
    | collecting st en acc =>
      rw [List.nil_append, List.nil_append, parseAux,
        if_pos (show jsTrim ([] : Str) = [] from rfl)]
      rw [show parseAux [[]] (.collecting st en acc) =
        pushCue (mkCue st en acc) [] from rfl]
      rw [← pushCue_append]
      rfl
  | cons l X2 ih =>
    intro m Y
    cases m with
    | scanning =>
      rw [List.cons_append, List.cons_append, parseAux, parseAux]
      by_cases hts : isTimestampLine (jsTrim l) = true
      · rw [if_pos hts, if_pos hts]
        exact ih _ _
      · rw [if_neg hts, if_neg hts]
        exact ih _ _
    | collecting st en acc =>
      rw [List.cons_append, List.cons_append, parseAux, parseAux]
      by_cases hb : jsTrim l = []
      · rw [if_pos hb, if_pos hb, ih _ _, pushCue_append]
      · rw [if_neg hb, if_neg hb]
        exact ih _ _

/-- Counterexample to C8 as stated: both segments are validator-valid, yet
parsing their (fetch-style) concatenation differs from concatenating the
per-segment parses — the first segment has no trailing blank line, so its last
cue absorbs the second segment's header line into its text. -/
theorem c8_parse_concat_counterexample :
    (validateVTTContentDetailed c8Seg1).isValid = true ∧
      (validateVTTContentDetailed c8Seg2).isValid = true ∧
      parseVTT (concatSegs [c8Seg1, c8Seg2]) ≠
        ([c8Seg1, c8Seg2].map parseVTT).flatten := by
  refine ⟨by decide, by decide, by decide⟩

/-- **C8 (amended).**  For every list of segments **each ending in a
newline** (so each segment boundary of the loop's concatenation falls on a
blank line), parsing the concatenation built by the fetch loop equals the
concatenation of the per-segment parses, in order.  Validator-validity alone
does not suffice (see the counterexample). -/
theorem c8_parse_concat_amended :
    ∀ segs : List Str, (∀ s ∈ segs, s.getLast? = some '\n') →
      parseVTT (concatSegs segs) = (segs.map parseVTT).flatten := by
  intro segs
  induction segs with
  | nil => intro _; rfl
  | cons s rest ih =>
    intro hall
    have hs : s.getLast? = some '\n' := hall s (by simp)
    have hrest : ∀ t ∈ rest, t.getLast? = some '\n' := fun t ht => hall t (by simp [ht])
    have hconcat : concatSegs (s :: rest) = s ++ '\n' :: concatSegs rest := by
      simp [concatSegs]
    have hnotr : ∀ c, s.getLast? = some c → c ≠ '\r' := by
      intro c hc
      rw [hs] at hc
      injection hc with hc
      rw [← hc]
      decide
    obtain ⟨L, hLne, hL⟩ := splitLines_ends_blank s hs
    unfold parseVTT
    rw [hconcat, splitLines_append_nl hnotr, hL, List.append_assoc,
      List.singleton_append, parseAux_split_at_blank, ← hL]
    have ih2 := ih hrest
    unfold parseVTT at ih2
    rw [ih2]
    simp

/-- Witness for C8: two newline-terminated segments parse compositionally. -/
theorem c8_parse_concat_witness :
    parseVTT (concatSegs [c8SegA, c8SegB]) =
      ([c8SegA, c8SegB].map parseVTT).flatten :=
  c8_parse_concat_amended [c8SegA, c8SegB] (by decide)

end DualSub
